import Mathlib

/-!
Ring-buffer log store (`logger/handler/ringbuffer.go`).

A shallow embedding of the per-project ring-buffer log cache and of the HTTP
handler in front of it, followed by theorems about them.

Modelling conventions

* A Go `string` is a Lean `String`; a Go `int` is an `Int` (64-bit range where
  the code depends on it, i.e. in `strconv.Atoi`).
* `interface{}` slot values are `Option String`: `none` is the `nil` value of a
  slot that was never written, `some l` a stored line.
* A non-nil `*ring.Ring` is the cyclic sequence of slot values read from the
  element the pointer designates, following `Next`.  The nil pointer returned
  by `ring.New` for a non-positive size is `none`.
* The process-wide variables `logStorage` and `ringBufferSize` are the two
  fields of `State`; every function takes the state and returns the new one.
  The mutex makes each call atomic, so calls are modelled as sequential steps.
* A run-time panic (nil dereference, index out of range) is `none`.
-/

namespace RingBuffer

deriving instance DecidableEq for Except

/-! ## `container/ring` -/

/-- A non-nil ring pointer: `Value` is the value of the element pointed at and
`rest` holds the values of the elements that follow it in `Next` order. -/
structure Ring where
  Value : Option String
  rest : List (Option String)
deriving DecidableEq, Repr

namespace Ring

/-- Go `ring.New(n)`: a ring of `n` elements whose values are all nil, or the
nil pointer (`none`) when `n <= 0`. -/
def New (n : Int) : Option Ring :=
  if n ≤ 0 then none else some ⟨none, List.replicate (n.toNat - 1) none⟩

/-- Go `r.Next()`: the pointer moved one element forward. -/
def Next (r : Ring) : Ring :=
  match r.rest with
  | [] => r
  | x :: xs => ⟨x, xs ++ [r.Value]⟩

/-- Go `r.Len()`: the number of elements of the ring. -/
def Len (r : Ring) : Nat := r.rest.length + 1

/-- The slot values in the order `Do` visits them, starting at the pointer. -/
def toList (r : Ring) : List (Option String) := r.Value :: r.rest

/-- Go `r.Do(f)`: call `f` on every element in forward order, starting at the
pointer.  The closure's captured variables are threaded as the state `σ`. -/
def Do {σ : Type} (r : Ring) (f : σ → Option String → σ) (init : σ) : σ :=
  r.toList.foldl f init

/-- Go `r.Value = v`: assignment to the element pointed at. -/
def setValue (r : Ring) (v : Option String) : Ring := { r with Value := v }

end Ring

/-! ## Package state -/

/-- The package-level variables `logStorage` and `ringBufferSize`. -/
structure State where
  logStorage : String → Option Ring
  ringBufferSize : Int

/-- The state at start-up with `ringBufferSize` set to `c`: an empty map. -/
def State.init (c : Int) : State := ⟨fun _ => none, c⟩

/-- Go `logStorage[name] = r`. -/
def State.store (s : State) (name : String) (r : Ring) : State :=
  { s with logStorage := fun k => if k = name then some r else s.logStorage k }

/-! ## `addToStorage` and `getFromStorage` -/

/-- Go `addToStorage(name, message)`.  `none` is the nil-pointer panic of
`r.Value = message` when `ring.New` returned nil. -/
def addToStorage (s : State) (name message : String) : Option State :=
  match s.logStorage name with
  | none =>
    match Ring.New s.ringBufferSize with
    | none => none
    | some r => some (s.store name (r.setValue (some message)))
  | some currentRing =>
    let r := currentRing.Next
    some (s.store name (r.setValue (some message)))

/-- Go `fmt.Sprint(line)` for a single string operand. -/
def Sprint (line : String) : String := line

/-- Go `fmt.Sprintln(line)` for a single string operand. -/
def Sprintln (line : String) : String := line ++ "\n"

/-- The closure `getLine` of `getFromStorage`; the state is the pair of the
captured variables `(lines, data)`. -/
def getLine (st : Int × String) (line : Option String) : Int × String :=
  match line with
  | none => st
  | some l =>
    if st.1 ≤ 0 then st
    else
      let lines := st.1 - 1
      if lines = 0 then (lines, st.2 ++ Sprint l) else (lines, st.2 ++ Sprintln l)

/-- The text of the error `fmt.Errorf("Could not find logs for project '%s'", name)`. -/
def notFoundMsg (name : String) : String :=
  "Could not find logs for project '" ++ name ++ "'"

/-- Go `getFromStorage(name, lines)`: `.error msg` is the returned `error`,
`.ok data` the returned string with a nil error. -/
def getFromStorage (s : State) (name : String) (lines : Int) : Except String String :=
  match s.logStorage name with
  | none => .error (notFoundMsg name)
  | some currentRing => .ok (currentRing.Next.Do getLine (lines, "")).2

/-- The same traversal as `getLine`, recording the line itself instead of its
rendering: the state is `(lines, the lines written to data so far)`. -/
def getLineRec (st : Int × List String) (line : Option String) : Int × List String :=
  match line with
  | none => st
  | some l => if st.1 ≤ 0 then st else (st.1 - 1, st.2 ++ [l])

/-- The lines `getFromStorage(name, lines)` writes into `data`, in the order
written; `none` when the name has no bucket. -/
def linesRead (s : State) (name : String) (lines : Int) : Option (List String) :=
  match s.logStorage name with
  | none => none
  | some currentRing => some (currentRing.Next.Do getLineRec (lines, [])).2

/-! ## Sequences of calls -/

/-- One call on the store: `addToStorage(name, line)` or
`getFromStorage(name, lines)`. -/
inductive Op where
  | add (name line : String)
  | get (name : String) (lines : Int)
deriving DecidableEq, Repr

/-- The effect of one call on the package state (`getFromStorage` assigns
neither `logStorage` nor `ringBufferSize`). -/
def step (s : State) : Op → Option State
  | .add name line => addToStorage s name line
  | .get _ _ => some s

/-- The calls of `ops` performed one after the other; `none` if one panics. -/
def run (s : State) : List Op → Option State
  | [] => some s
  | op :: ops => (step s op).bind fun s1 => run s1 ops

/-- The lines appended for `name` by `ops`, oldest first. -/
def appended (name : String) : List Op → List String
  | [] => []
  | .add k line :: ops => if k = name then line :: appended name ops else appended name ops
  | .get _ _ :: ops => appended name ops

/-- The number of slots of a ring that hold a line. -/
def populated (r : Ring) : Nat := (r.toList.filter Option.isSome).length

/-! ## The HTTP handler -/

/-- The character class `[-a-z0-9]`. -/
def isNameChar (c : Char) : Bool :=
  c = '-' ∨ ('a' ≤ c ∧ c ≤ 'z') ∨ ('0' ≤ c ∧ c ≤ '9')

/-- The character class `[0-9]`. -/
def isDigitChar (c : Char) : Bool := '0' ≤ c ∧ c ≤ '9'

/-- The part of a string that a trailing `.*` matches: up to the first newline. -/
def dotStar (cs : List Char) : List Char := cs.takeWhile fun c => c ≠ '\n'

/-- Go `regexpForPost.FindStringSubmatch(uri)` for the pattern
`^/([-a-z0-9]+)/.*`: `none` is the nil slice, `some (m0, m1)` the slice
`[m0, m1]` of the whole match and the first group. -/
def regexpForPost (uri : String) : Option (String × String) :=
  match uri.data with
  | '/' :: cs =>
    let name := cs.takeWhile isNameChar
    match cs.dropWhile isNameChar with
    | '/' :: tl =>
      if name = [] then none
      else some (String.mk ('/' :: name ++ '/' :: dotStar tl), String.mk name)
    | _ => none
  | _ => none

/-- Go `regexpForGet.FindStringSubmatch(uri)` for the pattern
`^/([-a-z0-9]+)/([0-9]+)/.*`: `none` is the nil slice, `some (m0, m1, m2)` the
slice `[m0, m1, m2]`. -/
def regexpForGet (uri : String) : Option (String × String × String) :=
  match uri.data with
  | '/' :: cs =>
    let name := cs.takeWhile isNameChar
    match cs.dropWhile isNameChar with
    | '/' :: ds =>
      let digits := ds.takeWhile isDigitChar
      match ds.dropWhile isDigitChar with
      | '/' :: tl =>
        if name = [] ∨ digits = [] then none
        else some (String.mk ('/' :: name ++ '/' :: digits ++ '/' :: dotStar tl),
                   String.mk name, String.mk digits)
      | _ => none
    | _ => none
  | _ => none

/-- The value of a string of decimal digits. -/
def decimalValue (ds : List Char) : Nat :=
  ds.foldl (fun n c => 10 * n + (c.toNat - '0'.toNat)) 0

/-- Go `strconv.Atoi(s)` with a 64-bit `int`: an optional sign followed by one
or more decimal digits whose value fits the type; `none` is a non-nil error
(syntax or range). -/
def Atoi (s : String) : Option Int :=
  let signed : Bool × List Char :=
    match s.data with
    | '-' :: ds => (true, ds)
    | '+' :: ds => (false, ds)
    | ds => (false, ds)
  let ds := signed.2
  if ds = [] ∨ ¬ ds.all isDigitChar then none
  else
    let v := decimalValue ds
    if signed.1 then (if 2 ^ 63 < v then none else some (-(v : Int)))
    else (if 2 ^ 63 ≤ v then none else some (v : Int))

/-- The fields of `*http.Request` the handler reads; `Form` is `r.Form` as it
stands after `r.ParseForm()`. -/
structure Request where
  Method : String
  RequestURI : String
  Form : List (String × List String)

/-- The text written for a path that does not match the expected shape. -/
def routingMsg (uri : String) : String :=
  "Could not get application name from url: " ++ uri

/-- The text written for a POST without a `message` field. -/
def noMessageMsg : String :=
  "Could not read from post request, no 'message' param in POST\n"

/-- The text written when `strconv.Atoi` fails on the count. -/
def badCountMsg : String :=
  "Unable to get log lines parameter from request\n"

/-- Go `httpHandler(w, r)`: the new package state and the text written to `w`.
`none` is a panic (`value[0]` on an empty slice, or the one of `addToStorage`). -/
def httpHandler (s : State) (r : Request) : Option (State × String) :=
  if r.Method = "POST" then
    match regexpForPost r.RequestURI with
    | none => some (s, routingMsg r.RequestURI)
    | some m =>
      match r.Form.lookup "message" with
      | none => some (s, noMessageMsg)
      | some [] => none
      | some (v :: _) => (addToStorage s m.2 v).map fun s1 => (s1, "")
  else
    match regexpForGet r.RequestURI with
    | none => some (s, routingMsg r.RequestURI)
    | some m =>
      match Atoi m.2.2 with
      | none => some (s, badCountMsg)
      | some logLines =>
        match getFromStorage s m.2.1 logLines with
        | .error err => some (s, err ++ "\n")
        | .ok data => some (s, data)

/-! ## Start-up and the ingestion loop -/

/-- Go `RingBufferHandler(bufferSize, webServicePort)`: the assignment
`ringBufferSize = bufferSize`, made without any check of the value.  The two
goroutines it starts are `ringBufferLoop` and the web service, modelled by
`ringBufferLoop` and `httpHandler` below. -/
def RingBufferHandler (s : State) (bufferSize _webServicePort : Int) : State :=
  { s with ringBufferSize := bufferSize }

/-- One iteration of the loop of `ringBufferLoop` for a record `m` that is not
nil, given by its rendering `m.String()`.  `getProjectName` is defined outside
this file and is a parameter: `.ok name` is a nil error, `.error e` an error
whose `Error()` text is `e`.  The result is the new package state with the
calls `drain.SendToDrain(line, uri)` made, as pairs `(line, uri)`; `none` is
the panic of `addToStorage`. -/
def ringBufferLoopBody (getProjectName : String → Except String String) (DrainURI : String)
    (s : State) (m : String) : Option (State × List (String × String)) :=
  let sent := if DrainURI ≠ "" then [(m, DrainURI)] else []
  let message := m
  match getProjectName message with
  | .error err => (addToStorage s "unknown" (Sprintln err)).map fun s1 => (s1, sent)
  | .ok projectName => (addToStorage s projectName message).map fun s1 => (s1, sent)

/-- Go `ringBufferLoop()` over the records `h.Get()` yields before it returns
nil, each given by its rendering. -/
def ringBufferLoop (getProjectName : String → Except String String) (DrainURI : String)
    (s : State) : List String → Option (State × List (String × String))
  | [] => some (s, [])
  | m :: ms =>
    (ringBufferLoopBody getProjectName DrainURI s m).bind fun p1 =>
      (ringBufferLoop getProjectName DrainURI p1.1 ms).map fun p2 => (p2.1, p1.2 ++ p2.2)

/-! ## Specification-side vocabulary -/

/-- The slots of a bucket of `c` slots after the lines `h` were appended to it,
listed from the slot after the cursor round to the cursor: the last `c`
entries of `c` empty slots followed by the appended lines. -/
def slots (c : Nat) (h : List String) : List (Option String) :=
  (List.replicate c none ++ h.map some).drop h.length

/-- The lines a bucket of `c` slots still holds after the lines `h` were
appended to it, oldest first: the last `min h.length c` of them. -/
def retained (c : Nat) (h : List String) : List String := h.drop (h.length - c)

/-- Every line followed by a newline. -/
def terminated (ls : List String) : String := String.join (ls.map fun l => l ++ "\n")

/-- The lines separated by single newlines, none after the last. -/
def newlineJoined (ls : List String) : String := "\n".intercalate ls

/-- The text `getFromStorage` builds for the count `n` when the slots it
traverses hold the lines `rs` (oldest first): nothing for `n <= 0`, the first
`n` lines newline-joined when there are that many, and otherwise every line
newline-terminated. -/
def readText (n : Int) (rs : List String) : String :=
  if n ≤ 0 then ""
  else if n ≤ (rs.length : Int) then newlineJoined (rs.take n.toNat)
  else terminated rs

/-- The bucket of `name` in `s` is the one produced by appending the lines `h`
to a fresh bucket of `c` slots: absent when `h` is empty, and otherwise a ring
whose slots, read from the one after the cursor, are `slots c h`. -/
def bucketOf (s : State) (name : String) (c : Nat) (h : List String) : Prop :=
  match h with
  | [] => s.logStorage name = none
  | _ :: _ => ∃ r, s.logStorage name = some r ∧ r.Next.toList = slots c h

/-- The `k` most recently appended lines of the history `h`, in append order. -/
def mostRecent (k : Nat) (h : List String) : List String := h.drop (h.length - k)

/-! ## Lemmas on rings -/

theorem Ring.toList_Next (r : Ring) : r.Next.toList = r.rest ++ [r.Value] := by
  obtain ⟨v, rest⟩ := r
  cases rest <;> simp [Ring.Next, Ring.toList]

theorem Ring.Len_Next (r : Ring) : r.Next.Len = r.Len := by
  obtain ⟨v, rest⟩ := r
  cases rest <;> simp [Ring.Next, Ring.Len]

theorem Ring.toList_Next_write (r : Ring) (v : Option String) :
    (r.Next.setValue v).Next.toList = r.Next.toList.tail ++ [v] := by
  rw [Ring.toList_Next, Ring.toList_Next]
  obtain ⟨w, rest⟩ := r
  cases rest <;> simp [Ring.Next, Ring.setValue]

theorem Ring.New_pos (c : Int) (hc : 1 ≤ c) :
    Ring.New c = some ⟨none, List.replicate (c.toNat - 1) none⟩ := by
  have : ¬ c ≤ 0 := by omega
  simp [Ring.New, this]

theorem slots_eq (c : Nat) (h : List String) :
    slots c h = List.replicate (c - h.length) none ++ (retained c h).map some := by
  simp [slots, retained, List.drop_append_eq_append_drop, List.map_drop]

theorem slots_length (c : Nat) (h : List String) : (slots c h).length = c := by
  simp [slots]

theorem slots_snoc (c : Nat) (hc : 1 ≤ c) (h : List String) (l : String) :
    slots c (h ++ [l]) = (slots c h).tail ++ [some l] := by
  have hlen : h.length + 1 ≤ (List.replicate c (none : Option String) ++ h.map some).length := by
    simp; omega
  simp only [slots, List.map_append, List.length_append, List.length_singleton,
    List.map_cons, List.map_nil, List.tail_drop]
  rw [← List.append_assoc, List.drop_append_of_le_length hlen]

theorem slots_single (c : Nat) (hc : 1 ≤ c) (l : String) :
    slots c [l] = List.replicate (c - 1) none ++ [some l] := by
  simp [slots_eq, retained]
  have : 1 - c = 0 := by omega
  simp [this]

theorem retained_length (c : Nat) (h : List String) :
    (retained c h).length = min h.length c := by
  simp [retained]; omega

/-! ## Lemmas on the rendering of lines -/

theorem join_foldl_acc (xs : List String) (acc : String) :
    xs.foldl (fun r s => r ++ s) acc = acc ++ xs.foldl (fun r s => r ++ s) "" := by
  induction xs generalizing acc with
  | nil => simp
  | cons x xs ih =>
    simp only [List.foldl_cons]
    rw [ih (acc ++ x), ih ("" ++ x)]
    simp [String.append_assoc]

theorem terminated_nil : terminated [] = "" := rfl

theorem terminated_cons (l : String) (ls : List String) :
    terminated (l :: ls) = l ++ "\n" ++ terminated ls := by
  simp only [terminated, String.join, List.map_cons, List.foldl_cons]
  rw [join_foldl_acc]
  simp

theorem intercalate_go_acc (sep : String) (xs : List String) (acc : String) :
    String.intercalate.go acc sep xs = acc ++ String.intercalate.go "" sep xs := by
  induction xs generalizing acc with
  | nil => simp [String.intercalate.go]
  | cons x xs ih =>
    simp only [String.intercalate.go]
    rw [ih (acc ++ sep ++ x), ih ("" ++ sep ++ x)]
    simp [String.append_assoc]

theorem newlineJoined_nil : newlineJoined [] = "" := rfl

theorem newlineJoined_single (l : String) : newlineJoined [l] = l := rfl

theorem newlineJoined_cons_cons (a b : String) (bs : List String) :
    newlineJoined (a :: b :: bs) = a ++ "\n" ++ newlineJoined (b :: bs) := by
  simp only [newlineJoined, String.intercalate, String.intercalate.go]
  rw [intercalate_go_acc, intercalate_go_acc "\n" bs b]
  simp [String.append_assoc]

/-! ## Lemmas on the traversal of `getFromStorage` -/

theorem foldl_getLine_nonpos (xs : List (Option String)) (n : Int) (d : String)
    (hn : n ≤ 0) : xs.foldl getLine (n, d) = (n, d) := by
  induction xs with
  | nil => rfl
  | cons x xs ih =>
    cases x <;> simp [getLine, hn, ih]

theorem foldl_getLine_nones (k : Nat) (xs : List (Option String)) (st : Int × String) :
    (List.replicate k none ++ xs).foldl getLine st = xs.foldl getLine st := by
  induction k with
  | zero => simp
  | succ k ih => simpa [List.replicate_succ, getLine] using ih

theorem foldl_getLine_short (rs : List String) (n : Int) (d : String)
    (h : (rs.length : Int) < n) :
    (rs.map some).foldl getLine (n, d) = (n - rs.length, d ++ terminated rs) := by
  induction rs generalizing n d with
  | nil => simp [terminated_nil]
  | cons l rs ih =>
    have hlen : ((l :: rs).length : Int) = rs.length + 1 := by simp
    rw [hlen] at h
    have h1 : ¬ n ≤ 0 := by omega
    have h2 : ¬ n - 1 = 0 := by omega
    simp only [List.map_cons, List.foldl_cons, getLine, h1, h2, if_false]
    rw [ih (n - 1) _ (by omega), terminated_cons, hlen]
    simp only [Sprintln, String.append_assoc]
    congr 1
    omega

theorem foldl_getLine_enough (rs : List String) (n : Int) (d : String)
    (h1 : 1 ≤ n) (h2 : n ≤ (rs.length : Int)) :
    ((rs.map some).foldl getLine (n, d)).2 = d ++ newlineJoined (rs.take n.toNat) := by
  induction rs generalizing n d with
  | nil => simp at h2; omega
  | cons l rs ih =>
    have hlen : ((l :: rs).length : Int) = rs.length + 1 := by simp
    rw [hlen] at h2
    have hn : ¬ n ≤ 0 := by omega
    obtain ⟨m, rfl⟩ : ∃ m : Nat, n = (m : Int) + 1 := ⟨(n - 1).toNat, by omega⟩
    have htn : ((m : Int) + 1).toNat = m + 1 := by omega
    simp only [List.map_cons, List.foldl_cons, getLine, hn, if_false, htn, List.take_succ_cons]
    by_cases hm : m = 0
    · subst hm
      simp [foldl_getLine_nonpos, Sprint, newlineJoined_single]
    · have hm0 : ¬ ((m : Int) + 1 - 1 = 0) := by omega
      simp only [hm0, if_false]
      have hm1 : (1 : Int) ≤ (m : Int) + 1 - 1 := by omega
      rw [ih ((m : Int) + 1 - 1) _ hm1 (by omega)]
      have htm : ((m : Int) + 1 - 1).toNat = m := by omega
      rw [htm]
      cases rs with
      | nil => simp at h2; omega
      | cons b bs =>
        obtain ⟨j, rfl⟩ : ∃ j, m = j + 1 := ⟨m - 1, by omega⟩
        simp only [List.take_succ_cons, newlineJoined_cons_cons, Sprintln, String.append_assoc]

theorem foldl_getLineRec_nones (k : Nat) (xs : List (Option String))
    (st : Int × List String) :
    (List.replicate k none ++ xs).foldl getLineRec st = xs.foldl getLineRec st := by
  induction k with
  | zero => simp
  | succ k ih => simpa [List.replicate_succ, getLineRec] using ih

theorem foldl_getLineRec_some (rs : List String) (n : Int) (acc : List String) :
    ((rs.map some).foldl getLineRec (n, acc)).2 = acc ++ rs.take n.toNat := by
  induction rs generalizing n acc with
  | nil => simp
  | cons l rs ih =>
    simp only [List.map_cons, List.foldl_cons, getLineRec]
    by_cases hn : n ≤ 0
    · have : n.toNat = 0 := by omega
      simp only [hn, if_true, this, List.take_zero, List.append_nil]
      rw [ih, this]; simp
    · obtain ⟨m, rfl⟩ : ∃ m : Nat, n = (m : Int) + 1 := ⟨(n - 1).toNat, by omega⟩
      have htn : ((m : Int) + 1).toNat = m + 1 := by omega
      have htm : ((m : Int) + 1 - 1).toNat = m := by omega
      simp only [hn, if_false, htn, List.take_succ_cons]
      rw [ih, htm]; simp

theorem foldl_getLine_slots (c : Nat) (h : List String) (n : Int) :
    ((slots c h).foldl getLine (n, "")).2 = readText n (retained c h) := by
  rw [slots_eq, foldl_getLine_nones]
  unfold readText
  by_cases hn : n ≤ 0
  · simp [hn, foldl_getLine_nonpos]
  · by_cases hm : n ≤ ((retained c h).length : Int)
    · rw [foldl_getLine_enough _ _ _ (by omega) hm]
      simp [hn, hm]
    · rw [foldl_getLine_short _ _ _ (by omega)]
      simp [hn, hm]

theorem foldl_getLineRec_slots (c : Nat) (h : List String) (n : Int) :
    ((slots c h).foldl getLineRec (n, [])).2 = (retained c h).take n.toNat := by
  rw [slots_eq, foldl_getLineRec_nones, foldl_getLineRec_some]
  simp

theorem foldl_getLine_some (rs : List String) (n : Int) :
    ((rs.map some).foldl getLine (n, "")).2 = readText n rs := by
  unfold readText
  by_cases hn : n ≤ 0
  · simp [hn, foldl_getLine_nonpos]
  · by_cases hm : n ≤ (rs.length : Int)
    · rw [foldl_getLine_enough _ _ _ (by omega) hm]
      simp [hn, hm]
    · rw [foldl_getLine_short _ _ _ (by omega)]
      simp [hn, hm]

theorem foldl_getLine_filterMap (xs : List (Option String)) (st : Int × String) :
    xs.foldl getLine st = ((xs.filterMap id).map some).foldl getLine st := by
  induction xs generalizing st with
  | nil => rfl
  | cons x xs ih =>
    cases x with
    | none => simpa [getLine] using ih st
    | some l => simpa using ih (getLine st (some l))

theorem foldl_getLineRec_filterMap (xs : List (Option String)) (st : Int × List String) :
    xs.foldl getLineRec st = ((xs.filterMap id).map some).foldl getLineRec st := by
  induction xs generalizing st with
  | nil => rfl
  | cons x xs ih =>
    cases x with
    | none => simpa [getLineRec] using ih st
    | some l => simpa using ih (getLineRec st (some l))

/-- In every state the text of `getFromStorage` is the rendering of the lines
recorded by `linesRead`: newline-terminated when fewer lines than the count
were written, newline-joined otherwise. -/
theorem getFromStorage_eq_linesRead (s : State) (name : String) (n : Int) :
    getFromStorage s name n =
      match linesRead s name n with
      | none => .error (notFoundMsg name)
      | some ls => .ok (if (ls.length : Int) < n then terminated ls else newlineJoined ls) := by
  cases hr : s.logStorage name with
  | none => simp [getFromStorage, linesRead, hr]
  | some r =>
    simp only [getFromStorage, linesRead, hr, Ring.Do]
    rw [foldl_getLine_filterMap, foldl_getLineRec_filterMap, foldl_getLine_some,
      foldl_getLineRec_some]
    generalize r.Next.toList.filterMap id = rs
    simp only [List.nil_append, readText]
    by_cases hn : n ≤ 0
    · have h0 : n.toNat = 0 := by omega
      have h1 : ¬ (0 : Int) < n := by omega
      simp [hn, h0, h1, newlineJoined_nil]
    · by_cases hm : n ≤ (rs.length : Int)
      · have h1 : ¬ (((rs.take n.toNat).length : Nat) : Int) < n := by
          rw [List.length_take]; omega
        simp only [hn, hm, if_true, if_false, h1]
      · have h1 : rs.take n.toNat = rs := List.take_of_length_le (by omega)
        have h2 : (rs.length : Int) < n := by omega
        simp only [hn, hm, if_false, h1, h2, if_true]

/-! ## The bucket of a name along a sequence of calls -/

theorem bucketOf_cons_iff (s : State) (name : String) (c : Nat) (h : List String)
    (hne : h ≠ []) :
    bucketOf s name c h ↔ ∃ r, s.logStorage name = some r ∧ r.Next.toList = slots c h := by
  cases h with
  | nil => exact absurd rfl hne
  | cons a t => rfl

theorem State.store_self (s : State) (k : String) (r : Ring) :
    (s.store k r).logStorage k = some r := by
  simp [State.store]

theorem State.store_other (s : State) (k name : String) (r : Ring) (hne : name ≠ k) :
    (s.store k r).logStorage name = s.logStorage name := by
  simp [State.store, hne]

theorem addToStorage_some (s : State) (k line : String) (hc : 1 ≤ s.ringBufferSize) :
    ∃ s1, addToStorage s k line = some s1 ∧ s1.ringBufferSize = s.ringBufferSize ∧
      (∃ r, s1.logStorage k = some r ∧ r.Value = some line) ∧
      ∀ name, name ≠ k → s1.logStorage name = s.logStorage name := by
  unfold addToStorage
  cases hk : s.logStorage k with
  | none =>
    simp only [Ring.New_pos _ hc]
    refine ⟨_, rfl, rfl, ⟨_, State.store_self _ _ _, rfl⟩, ?_⟩
    intro name hne
    exact State.store_other _ _ _ _ hne
  | some r =>
    refine ⟨_, rfl, rfl, ⟨_, State.store_self _ _ _, rfl⟩, ?_⟩
    intro name hne
    exact State.store_other _ _ _ _ hne

theorem addToStorage_bucketOf (s : State) (name k line : String) (h : List String)
    (hc : 1 ≤ s.ringBufferSize) (hb : bucketOf s name s.ringBufferSize.toNat h) :
    ∃ s1, addToStorage s k line = some s1 ∧ s1.ringBufferSize = s.ringBufferSize ∧
      bucketOf s1 name s.ringBufferSize.toNat (if k = name then h ++ [line] else h) := by
  by_cases hk : k = name
  · subst hk
    simp only [if_true]
    have hcn : 1 ≤ s.ringBufferSize.toNat := by omega
    have hne : h ++ [line] ≠ [] := by simp
    cases h with
    | nil =>
      have hb0 : s.logStorage k = none := hb
      refine ⟨s.store k ((⟨none, List.replicate (s.ringBufferSize.toNat - 1) none⟩ : Ring).setValue
        (some line)), ?_, rfl, ?_⟩
      · simp [addToStorage, hb0, Ring.New_pos _ hc]
      · rw [bucketOf_cons_iff _ _ _ _ hne]
        refine ⟨_, State.store_self _ _ _, ?_⟩
        rw [Ring.toList_Next, List.nil_append, slots_single _ hcn]
        simp [Ring.setValue]
    | cons a t =>
      obtain ⟨r, hr, hslots⟩ := hb
      refine ⟨s.store k (r.Next.setValue (some line)), ?_, rfl, ?_⟩
      · simp [addToStorage, hr]
      · rw [bucketOf_cons_iff _ _ _ _ hne]
        refine ⟨_, State.store_self _ _ _, ?_⟩
        rw [Ring.toList_Next_write, hslots, slots_snoc _ hcn]
  · simp only [hk, if_false]
    obtain ⟨s1, hs1, hsz, -, hframe⟩ := addToStorage_some s k line hc
    refine ⟨s1, hs1, hsz, ?_⟩
    have hname : s1.logStorage name = s.logStorage name := hframe name (Ne.symm hk)
    cases h with
    | nil => exact hname.trans hb
    | cons a t =>
      obtain ⟨r, hr, hslots⟩ := hb
      exact ⟨r, hname.trans hr, hslots⟩

theorem run_bucketOf (ops : List Op) (s : State) (name : String) (h : List String)
    (hc : 1 ≤ s.ringBufferSize) (hb : bucketOf s name s.ringBufferSize.toNat h) :
    ∃ s1, run s ops = some s1 ∧ s1.ringBufferSize = s.ringBufferSize ∧
      bucketOf s1 name s.ringBufferSize.toNat (h ++ appended name ops) := by
  induction ops generalizing s h with
  | nil => exact ⟨s, rfl, rfl, by simpa [appended] using hb⟩
  | cons op ops ih =>
    cases op with
    | add k line =>
      obtain ⟨s1, hs1, hsz, hb1⟩ := addToStorage_bucketOf s name k line h hc hb
      rw [← hsz] at hb1
      obtain ⟨s2, hs2, hsz2, hb2⟩ := ih s1 _ (by omega) hb1
      refine ⟨s2, by simp [run, step, hs1, hs2], by omega, ?_⟩
      rw [hsz] at hb2
      by_cases hk : k = name
      · simpa [appended, hk] using hb2
      · simpa [appended, hk] using hb2
    | get k n =>
      obtain ⟨s2, hs2, hsz2, hb2⟩ := ih s h hc hb
      exact ⟨s2, by simp [run, step, hs2], hsz2, by simpa [appended] using hb2⟩

theorem getFromStorage_bucketOf (s : State) (name : String) (c : Nat) (h : List String)
    (hne : h ≠ []) (hb : bucketOf s name c h) (n : Int) :
    getFromStorage s name n = .ok (readText n (retained c h)) ∧
      linesRead s name n = some ((retained c h).take n.toNat) := by
  obtain ⟨r, hr, hslots⟩ := (bucketOf_cons_iff s name c h hne).mp hb
  simp [getFromStorage, linesRead, hr, Ring.Do, hslots, foldl_getLine_slots,
    foldl_getLineRec_slots]

theorem run_fresh (s : State) (name : String) (ops : List Op)
    (hc : 1 ≤ s.ringBufferSize) (hfresh : s.logStorage name = none) :
    ∃ s1, run s ops = some s1 ∧ s1.ringBufferSize = s.ringBufferSize ∧
      bucketOf s1 name s.ringBufferSize.toNat (appended name ops) := by
  simpa using run_bucketOf ops s name [] hc hfresh

/-! ## Claims on `addToStorage` followed by `getFromStorage` -/

/-- C1: with capacity `C >= 1`, a name without a bucket and calls that append
between 1 and `C` lines to that name (appends to other names and reads may be
interleaved), `getFromStorage(name, C)` returns without error, the lines it
writes are exactly the appended ones in append order, and the text is those
lines newline-joined when there are `C` of them and newline-terminated when
there are fewer. -/
theorem read_all_within_capacity (s : State) (name : String) (ops : List Op)
    (hc : 1 ≤ s.ringBufferSize) (hfresh : s.logStorage name = none)
    (hk1 : 1 ≤ (appended name ops).length)
    (hk2 : ((appended name ops).length : Int) ≤ s.ringBufferSize) :
    ∃ s1 text, run s ops = some s1 ∧
      getFromStorage s1 name s.ringBufferSize = .ok text ∧
      linesRead s1 name s.ringBufferSize = some (appended name ops) ∧
      text = (if ((appended name ops).length : Int) = s.ringBufferSize
        then newlineJoined (appended name ops) else terminated (appended name ops)) := by
  obtain ⟨s1, hrun, -, hb⟩ := run_fresh s name ops hc hfresh
  have hne : appended name ops ≠ [] := by
    intro h0; rw [h0] at hk1; simp at hk1
  obtain ⟨htext, hlines⟩ :=
    getFromStorage_bucketOf s1 name _ _ hne hb s.ringBufferSize
  have hret : retained s.ringBufferSize.toNat (appended name ops) = appended name ops := by
    have : (appended name ops).length - s.ringBufferSize.toNat = 0 := by omega
    simp [retained, this]
  rw [hret] at htext hlines
  refine ⟨s1, _, hrun, htext, ?_, ?_⟩
  · rw [hlines, List.take_of_length_le (by omega)]
  · have h0 : ¬ s.ringBufferSize ≤ 0 := by omega
    by_cases heq : ((appended name ops).length : Int) = s.ringBufferSize
    · have : s.ringBufferSize.toNat = (appended name ops).length := by omega
      simp [readText, heq, h0, this]
    · have : ¬ s.ringBufferSize ≤ ((appended name ops).length : Int) := by omega
      simp [readText, heq, h0, this]

/-- Witness of C1: capacity 3, lines "a" and "b" appended to foo with an append
to bar in between. -/
theorem read_all_within_capacity_witness :
    ∃ s1 text, run (State.init 3) [.add "foo" "a", .add "bar" "x", .add "foo" "b"] = some s1 ∧
      getFromStorage s1 "foo" 3 = .ok text ∧
      linesRead s1 "foo" 3 = some ["a", "b"] ∧
      text = "a\nb\n" :=
  read_all_within_capacity (State.init 3) "foo"
    [.add "foo" "a", .add "bar" "x", .add "foo" "b"] (by decide) rfl (by decide) (by decide)

/-- C2: with capacity `C >= 1` and more than `C` lines appended to a name, the
bucket holds exactly the last `C` appended lines, `getFromStorage(name, C)`
returns them newline-joined in append order, and for every count the lines
read are an initial segment of those last `C` lines, so no evicted line is
ever returned. -/
theorem eviction_keeps_most_recent (s : State) (name : String) (ops : List Op)
    (hc : 1 ≤ s.ringBufferSize) (hfresh : s.logStorage name = none)
    (hk : s.ringBufferSize < ((appended name ops).length : Int)) :
    ∃ s1 r, run s ops = some s1 ∧ s1.logStorage name = some r ∧
      r.Next.toList = (mostRecent s.ringBufferSize.toNat (appended name ops)).map some ∧
      (mostRecent s.ringBufferSize.toNat (appended name ops)).length = s.ringBufferSize.toNat ∧
      getFromStorage s1 name s.ringBufferSize =
        .ok (newlineJoined (mostRecent s.ringBufferSize.toNat (appended name ops))) ∧
      ∀ n : Int, linesRead s1 name n =
        some ((mostRecent s.ringBufferSize.toNat (appended name ops)).take n.toNat) := by
  obtain ⟨s1, hrun, -, hb⟩ := run_fresh s name ops hc hfresh
  have hne : appended name ops ≠ [] := by
    intro h0; rw [h0] at hk; simp at hk; omega
  obtain ⟨r, hr, hslots⟩ := (bucketOf_cons_iff s1 name _ _ hne).mp hb
  have hlen : (retained s.ringBufferSize.toNat (appended name ops)).length
      = s.ringBufferSize.toNat := by
    rw [retained_length]; omega
  have hzero : s.ringBufferSize.toNat - (appended name ops).length = 0 := by omega
  refine ⟨s1, r, hrun, hr, ?_, hlen, ?_, ?_⟩
  · rw [hslots, slots_eq, hzero]; rfl
  · rw [(getFromStorage_bucketOf s1 name _ _ hne hb s.ringBufferSize).1]
    have h0 : ¬ s.ringBufferSize ≤ 0 := by omega
    have h1 : s.ringBufferSize ≤
        ((retained s.ringBufferSize.toNat (appended name ops)).length : Int) := by omega
    simp only [readText, h0, h1, if_true, if_false]
    rw [List.take_of_length_le (by omega)]; rfl
  · intro n
    exact (getFromStorage_bucketOf s1 name _ _ hne hb n).2

/-- Witness of C2: capacity 3 and "a", "b", "c", "d" appended to myapp; reading
3 lines gives "b\nc\nd". -/
theorem eviction_keeps_most_recent_witness :
    ∃ s1, run (State.init 3)
        [.add "myapp" "a", .add "myapp" "b", .add "myapp" "c", .add "myapp" "d"] = some s1 ∧
      getFromStorage s1 "myapp" 3 = .ok "b\nc\nd" ∧
      ∀ n : Int, linesRead s1 "myapp" n = some (["b", "c", "d"].take n.toNat) := by
  obtain ⟨s1, r, hrun, -, -, -, htext, hlines⟩ :=
    eviction_keeps_most_recent (State.init 3) "myapp"
      [.add "myapp" "a", .add "myapp" "b", .add "myapp" "c", .add "myapp" "d"]
      (by decide) rfl (by decide)
  exact ⟨s1, hrun, htext, hlines⟩

/-- C3: with capacity `C >= 1`, a name whose bucket was filled by appending the
lines `h` (so that it retains the last `m = min h.length C` of them) and a
count `n` (any integer, so in particular every `n >= 1`), `getFromStorage(name, n)`
returns without error, the lines it writes are the oldest `min n m` retained
lines in append order, and the text it returns is the rendering of exactly
those lines: each followed by a newline when there are fewer than `n` of them,
and separated by newlines otherwise.  Empty slots are skipped and do not
count. -/
theorem read_returns_oldest (s : State) (name : String) (ops : List Op)
    (hc : 1 ≤ s.ringBufferSize) (hfresh : s.logStorage name = none)
    (ha : appended name ops ≠ []) (n : Int) :
    ∃ s1, run s ops = some s1 ∧
      (retained s.ringBufferSize.toNat (appended name ops)).length
        = min (appended name ops).length s.ringBufferSize.toNat ∧
      linesRead s1 name n = some ((retained s.ringBufferSize.toNat (appended name ops)).take
        (min n.toNat (min (appended name ops).length s.ringBufferSize.toNat))) ∧
      getFromStorage s1 name n = .ok
        (if ((((retained s.ringBufferSize.toNat (appended name ops)).take
            (min n.toNat (min (appended name ops).length s.ringBufferSize.toNat))).length : Nat)
              : Int) < n
          then terminated ((retained s.ringBufferSize.toNat (appended name ops)).take
            (min n.toNat (min (appended name ops).length s.ringBufferSize.toNat)))
          else newlineJoined ((retained s.ringBufferSize.toNat (appended name ops)).take
            (min n.toNat (min (appended name ops).length s.ringBufferSize.toNat)))) := by
  obtain ⟨s1, hrun, -, hb⟩ := run_fresh s name ops hc hfresh
  obtain ⟨-, hlines⟩ := getFromStorage_bucketOf s1 name _ _ ha hb n
  have htake : (retained s.ringBufferSize.toNat (appended name ops)).take n.toNat
      = (retained s.ringBufferSize.toNat (appended name ops)).take
        (min n.toNat (min (appended name ops).length s.ringBufferSize.toNat)) := by
    rw [← retained_length]
    apply List.ext_getElem?
    intro i
    simp only [List.getElem?_take]
    by_cases hi : i < n.toNat
    · by_cases hj : i < (retained s.ringBufferSize.toNat (appended name ops)).length
      · have : i < min n.toNat (retained s.ringBufferSize.toNat (appended name ops)).length := by
          omega
        simp [hi, this]
      · have : ¬ i < min n.toNat (retained s.ringBufferSize.toNat (appended name ops)).length := by
          omega
        simp only [hi, this, if_true, if_false]
        exact List.getElem?_eq_none (by omega)
    · have : ¬ i < min n.toNat (retained s.ringBufferSize.toNat (appended name ops)).length := by
        omega
      simp [hi, this]
  rw [htake] at hlines
  refine ⟨s1, hrun, retained_length _ _, hlines, ?_⟩
  rw [getFromStorage_eq_linesRead, hlines]

/-- Witness of C3: capacity 3 with "a", "b", "c", "d" appended to foo and 2 lines
read (the two oldest retained lines, "b" and "c"); and capacity 3 with the
single line "a" appended and 5 lines read (the empty slots are skipped). -/
theorem read_returns_oldest_witness :
    (∃ s1, run (State.init 3)
          [.add "foo" "a", .add "foo" "b", .add "foo" "c", .add "foo" "d"] = some s1 ∧
        (retained 3 ["a", "b", "c", "d"]).length = 3 ∧
        linesRead s1 "foo" 2 = some ["b", "c"] ∧
        getFromStorage s1 "foo" 2 = .ok "b\nc") ∧
      (∃ s1, run (State.init 3) [.add "foo" "a"] = some s1 ∧
        (retained 3 ["a"]).length = 1 ∧
        linesRead s1 "foo" 5 = some ["a"] ∧
        getFromStorage s1 "foo" 5 = .ok "a\n") :=
  ⟨read_returns_oldest (State.init 3) "foo"
      [.add "foo" "a", .add "foo" "b", .add "foo" "c", .add "foo" "d"]
      (by decide) rfl (by decide) 2,
   read_returns_oldest (State.init 3) "foo" [.add "foo" "a"] (by decide) rfl (by decide) 5⟩

/-- C4, counterexample: with capacity 3 and "a" then "b" appended to foo,
`getFromStorage("foo", 1)` returns "a", the oldest retained line, whereas the
most recently appended line is "b". -/
theorem read_most_recent_counterexample :
    ∃ s1, run (State.init 3) [.add "foo" "a", .add "foo" "b"] = some s1 ∧
      getFromStorage s1 "foo" 1 = .ok "a" ∧
      linesRead s1 "foo" 1 = some ["a"] ∧
      mostRecent (min 1 (min 2 3)) ["a", "b"] = ["b"] ∧
      linesRead s1 "foo" 1 ≠ some (mostRecent (min 1 (min 2 3)) ["a", "b"]) :=
  ⟨_, rfl, by decide, by decide, by decide, by decide⟩

/-- C4, amended: with `m = min h.length C` retained lines and a count `n >= 1`:
when `m <= n`, `getFromStorage(name, n)` returns the `min n m` most recently
appended lines in append order (all the retained ones), as the text of those
lines separated by newlines when `n = m` and each followed by a newline when
`m < n`; when `n < m` it returns the `n` oldest of the `m` most recently
appended lines, separated by newlines. -/
theorem read_most_recent_when_all (s : State) (name : String) (ops : List Op)
    (hc : 1 ≤ s.ringBufferSize) (hfresh : s.logStorage name = none)
    (ha : appended name ops ≠ []) (n : Int) (hn : 1 ≤ n) :
    ∃ s1, run s ops = some s1 ∧
      (((min (appended name ops).length s.ringBufferSize.toNat : Nat) : Int) ≤ n →
        linesRead s1 name n = some (mostRecent
          (min n.toNat (min (appended name ops).length s.ringBufferSize.toNat))
          (appended name ops)) ∧
        getFromStorage s1 name n = .ok
          (if ((min (appended name ops).length s.ringBufferSize.toNat : Nat) : Int) < n
            then terminated (mostRecent
              (min n.toNat (min (appended name ops).length s.ringBufferSize.toNat))
              (appended name ops))
            else newlineJoined (mostRecent
              (min n.toNat (min (appended name ops).length s.ringBufferSize.toNat))
              (appended name ops)))) ∧
      (n < ((min (appended name ops).length s.ringBufferSize.toNat : Nat) : Int) →
        linesRead s1 name n = some
          ((mostRecent (min (appended name ops).length s.ringBufferSize.toNat)
            (appended name ops)).take n.toNat) ∧
        getFromStorage s1 name n = .ok (newlineJoined
          ((mostRecent (min (appended name ops).length s.ringBufferSize.toNat)
            (appended name ops)).take n.toNat))) := by
  obtain ⟨s1, hrun, -, hb⟩ := run_fresh s name ops hc hfresh
  obtain ⟨htext, hlines⟩ := getFromStorage_bucketOf s1 name _ _ ha hb n
  have hlen := retained_length s.ringBufferSize.toNat (appended name ops)
  have h2 : (appended name ops).length
      - min (appended name ops).length s.ringBufferSize.toNat
      = (appended name ops).length - s.ringBufferSize.toNat := by omega
  have hR : mostRecent (min (appended name ops).length s.ringBufferSize.toNat)
      (appended name ops) = retained s.ringBufferSize.toNat (appended name ops) := by
    simp [retained, mostRecent, h2]
  have h0 : ¬ n ≤ 0 := by omega
  refine ⟨s1, hrun, ?_, ?_⟩
  · intro hmn
    have h1 : min n.toNat (min (appended name ops).length s.ringBufferSize.toNat)
        = min (appended name ops).length s.ringBufferSize.toNat := by omega
    have htake : (retained s.ringBufferSize.toNat (appended name ops)).take n.toNat
        = retained s.ringBufferSize.toNat (appended name ops) :=
      List.take_of_length_le (by omega)
    rw [h1, hR]
    refine ⟨by rw [hlines, htake], ?_⟩
    rw [htext]
    by_cases hlt : ((min (appended name ops).length s.ringBufferSize.toNat : Nat) : Int) < n
    · have hle : ¬ n ≤ ((retained s.ringBufferSize.toNat (appended name ops)).length : Int) := by
        rw [hlen]; omega
      simp only [readText, h0, hle, hlt, if_true, if_false]
    · have hle : n ≤ ((retained s.ringBufferSize.toNat (appended name ops)).length : Int) := by
        rw [hlen]; omega
      simp only [readText, h0, hle, hlt, if_true, if_false, htake]
  · intro hmn
    have hle : n ≤ ((retained s.ringBufferSize.toNat (appended name ops)).length : Int) := by
      rw [hlen]; omega
    rw [hR]
    refine ⟨hlines, ?_⟩
    rw [htext]
    simp only [readText, h0, hle, if_true, if_false]

/-- Witness of the amended C4: capacity 2 with "a", "b", "c" appended to foo, so
that "b" and "c" are retained.  Reading 1 line gives "b", the oldest retained
line and not the most recent one; reading 5 lines gives the 2 most recently
appended lines, each followed by a newline. -/
theorem read_most_recent_when_all_witness :
    (∃ s1, run (State.init 2) [.add "foo" "a", .add "foo" "b", .add "foo" "c"] = some s1 ∧
        linesRead s1 "foo" 1 = some ["b"] ∧ getFromStorage s1 "foo" 1 = .ok "b") ∧
      (∃ s1, run (State.init 2) [.add "foo" "a", .add "foo" "b", .add "foo" "c"] = some s1 ∧
        linesRead s1 "foo" 5 = some ["b", "c"] ∧ getFromStorage s1 "foo" 5 = .ok "b\nc\n") := by
  obtain ⟨s1, hrun1, -, hold⟩ := read_most_recent_when_all (State.init 2) "foo"
    [.add "foo" "a", .add "foo" "b", .add "foo" "c"] (by decide) rfl (by decide) 1 (by decide)
  obtain ⟨s2, hrun2, hall, -⟩ := read_most_recent_when_all (State.init 2) "foo"
    [.add "foo" "a", .add "foo" "b", .add "foo" "c"] (by decide) rfl (by decide) 5 (by decide)
  exact ⟨⟨s1, hrun1, hold (by decide)⟩, ⟨s2, hrun2, hall (by decide)⟩⟩

/-- C5, evaluation at the failing input: with capacity 3 and the single line
"a" appended to foo, `getFromStorage("foo", 3)` returns the one line "a" as the
text "a\n", with a newline after the last returned line, and the read request
`/foo/3/x` writes that same text; the newline-joined rendering of the returned
lines is "a". -/
theorem read_trailing_newline_at_short_bucket :
    ∃ s1, run (State.init 3) [.add "foo" "a"] = some s1 ∧
      linesRead s1 "foo" 3 = some ["a"] ∧
      getFromStorage s1 "foo" 3 = .ok "a\n" ∧
      (httpHandler s1 ⟨"GET", "/foo/3/x", []⟩).map Prod.snd = some "a\n" ∧
      newlineJoined ["a"] = "a" ∧
      getFromStorage s1 "foo" 3 ≠ .ok (newlineJoined ["a"]) :=
  ⟨_, rfl, by decide, by decide, by decide, by decide, by decide⟩

/-! ## Lemmas on the request path and the count -/

theorem takeWhile_append_stop (p : Char → Bool) (l r : List Char) (x : Char)
    (hl : ∀ c ∈ l, p c = true) (hx : p x = false) :
    (l ++ x :: r).takeWhile p = l := by
  induction l with
  | nil => simp [List.takeWhile, hx]
  | cons a l ih =>
    have ha : p a = true := hl a (List.mem_cons_self _ _)
    simp [List.takeWhile, ha, ih (fun c hc => hl c (List.mem_cons_of_mem _ hc))]

theorem dropWhile_append_stop (p : Char → Bool) (l r : List Char) (x : Char)
    (hl : ∀ c ∈ l, p c = true) (hx : p x = false) :
    (l ++ x :: r).dropWhile p = x :: r := by
  induction l with
  | nil => simp [List.dropWhile, hx]
  | cons a l ih =>
    have ha : p a = true := hl a (List.mem_cons_self _ _)
    simp [List.dropWhile, ha, ih (fun c hc => hl c (List.mem_cons_of_mem _ hc))]

theorem regexpForPost_of_data (uri name suffix : String)
    (huri : uri.data = '/' :: (name.data ++ '/' :: suffix.data))
    (hne : name.data ≠ []) (hchars : ∀ c ∈ name.data, isNameChar c = true) :
    ∃ m0, regexpForPost uri = some (m0, name) := by
  have hslash : isNameChar '/' = false := by decide
  unfold regexpForPost
  rw [huri]
  simp only [takeWhile_append_stop _ _ _ _ hchars hslash,
    dropWhile_append_stop _ _ _ _ hchars hslash, hne, if_false]
  exact ⟨_, rfl⟩

theorem regexpForGet_of_data (uri name digits suffix : String)
    (huri : uri.data = '/' :: (name.data ++ '/' :: (digits.data ++ '/' :: suffix.data)))
    (hne : name.data ≠ []) (hchars : ∀ c ∈ name.data, isNameChar c = true)
    (hdne : digits.data ≠ []) (hdigits : ∀ c ∈ digits.data, isDigitChar c = true) :
    ∃ m0, regexpForGet uri = some (m0, name, digits) := by
  have hslash : isNameChar '/' = false := by decide
  have hslash2 : isDigitChar '/' = false := by decide
  unfold regexpForGet
  rw [huri]
  simp only [takeWhile_append_stop _ _ _ _ hchars hslash,
    dropWhile_append_stop _ _ _ _ hchars hslash,
    takeWhile_append_stop _ _ _ _ hdigits hslash2,
    dropWhile_append_stop _ _ _ _ hdigits hslash2, hne, hdne, or_self, if_false]
  exact ⟨_, rfl⟩

theorem Atoi_digits (digits : String) (hdne : digits.data ≠ [])
    (hdigits : ∀ c ∈ digits.data, isDigitChar c = true) :
    Atoi digits = if 2 ^ 63 ≤ decimalValue digits.data then none
      else some (decimalValue digits.data : Int) := by
  obtain ⟨ds⟩ := digits
  cases ds with
  | nil => exact absurd rfl hdne
  | cons c cs =>
    have hc : isDigitChar c = true := hdigits c (List.mem_cons_self _ _)
    have hminus : c ≠ '-' := by
      rintro rfl; exact absurd hc (by decide)
    have hplus : c ≠ '+' := by
      rintro rfl; exact absurd hc (by decide)
    have hall : (c :: cs).all isDigitChar = true := by
      rw [List.all_eq_true]; exact hdigits
    unfold Atoi
    split
    · rename_i heq; simp at heq; exact absurd heq.1 hminus
    · rename_i heq; simp at heq; exact absurd heq.1 hplus
    · simp [hall]

/-! ## Claims on failures, appends and the store invariant -/

/-- C6, counterexample: with no write to bar, the read request
`/bar/9223372036854775808/x` has the shape `/<name>/<digits>/<suffix>`, yet the
response is the count diagnostic and not the NotFound text, because the count
does not fit a 64-bit `int`. -/
theorem read_unknown_overflow_counterexample :
    (State.init 3).logStorage "bar" = none ∧
      regexpForGet "/bar/9223372036854775808/x"
        = some ("/bar/9223372036854775808/x", "bar", "9223372036854775808") ∧
      (httpHandler (State.init 3) ⟨"GET", "/bar/9223372036854775808/x", []⟩).map Prod.snd
        = some "Unable to get log lines parameter from request\n" ∧
      (httpHandler (State.init 3) ⟨"GET", "/bar/9223372036854775808/x", []⟩).map Prod.snd
        ≠ some (notFoundMsg "bar" ++ "\n") ∧
      (httpHandler (State.init 3) ⟨"GET", "/bar/9223372036854775808/x", []⟩).map Prod.snd
        ≠ some (notFoundMsg "bar") :=
  ⟨rfl, by decide, by decide, by decide, by decide⟩

/-- C6, amended: for every state and every name without a bucket,
`getFromStorage(name, n)` fails with the NotFound error for every integer `n`;
and a request that is not a POST, with path `/<name>/<digits>/<suffix>` where
the name is a non-empty string over `[-a-z0-9]` and the digits have a value
below `2^63`, writes the NotFound text followed by a newline and leaves the
state as it was, the name still without a bucket. -/
theorem read_unknown_not_found (s : State) (name : String)
    (hfresh : s.logStorage name = none) :
    (∀ n : Int, getFromStorage s name n
        = .error ("Could not find logs for project '" ++ name ++ "'")) ∧
      ∀ (method uri digits suffix : String) (form : List (String × List String)),
        method ≠ "POST" →
        uri.data = '/' :: (name.data ++ '/' :: (digits.data ++ '/' :: suffix.data)) →
        name.data ≠ [] → (∀ c ∈ name.data, isNameChar c = true) →
        digits.data ≠ [] → (∀ c ∈ digits.data, isDigitChar c = true) →
        decimalValue digits.data < 2 ^ 63 →
        ∃ s1, httpHandler s ⟨method, uri, form⟩
            = some (s1, "Could not find logs for project '" ++ name ++ "'" ++ "\n") ∧
          s1 = s ∧ s1.logStorage name = none := by
  have hget : ∀ n : Int, getFromStorage s name n = .error (notFoundMsg name) := by
    intro n; simp [getFromStorage, hfresh]
  refine ⟨hget, ?_⟩
  intro method uri digits suffix form hmeth huri hne hchars hdne hdigits hval
  obtain ⟨m0, hm⟩ := regexpForGet_of_data uri name digits suffix huri hne hchars hdne hdigits
  have hval2 : ¬ 2 ^ 63 ≤ decimalValue digits.data := by omega
  have hatoi : Atoi digits = some (decimalValue digits.data : Int) := by
    rw [Atoi_digits digits hdne hdigits, if_neg hval2]
  refine ⟨s, ?_, rfl, hfresh⟩
  simp [httpHandler, hmeth, hm, hatoi, hget, notFoundMsg]

/-- Witness of the amended C6: the read request `/bar/5/x` on the empty store. -/
theorem read_unknown_not_found_witness :
    (∀ n : Int, getFromStorage (State.init 3) "bar" n
        = .error "Could not find logs for project 'bar'") ∧
      ∃ s1, httpHandler (State.init 3) ⟨"GET", "/bar/5/x", []⟩
          = some (s1, "Could not find logs for project 'bar'\n") ∧
        s1 = State.init 3 ∧ s1.logStorage "bar" = none :=
  ⟨(read_unknown_not_found (State.init 3) "bar" rfl).1,
   (read_unknown_not_found (State.init 3) "bar" rfl).2 "GET" "/bar/5/x" "5" "x" []
     (by decide) rfl (by decide) (by decide) (by decide) (by decide) (by decide)⟩

/-- C7: for every state, every name that has a bucket and every count
`n <= 0`, `getFromStorage(name, n)` returns the empty string and no error. -/
theorem read_nonpositive_count_empty (s : State) (name : String) (r : Ring)
    (hr : s.logStorage name = some r) (n : Int) (hn : n ≤ 0) :
    getFromStorage s name n = .ok "" := by
  simp [getFromStorage, hr, Ring.Do, foldl_getLine_nonpos _ _ _ hn]

/-- Witness of C7: a full bucket of capacity 2 read with the count -1. -/
theorem read_nonpositive_count_empty_witness :
    getFromStorage ((State.init 2).store "foo" ⟨some "b", [some "a"]⟩) "foo" (-1) = .ok "" :=
  read_nonpositive_count_empty ((State.init 2).store "foo" ⟨some "b", [some "a"]⟩) "foo"
    ⟨some "b", [some "a"]⟩ rfl (-1) (by decide)

/-- C8: with a configured capacity of at least 1, in every state (hence in
every state reachable from the empty store), for every name and line,
`addToStorage(name, line)` completes without a panic, leaves the capacity as
it was, and afterwards the name has a bucket whose cursor slot holds the line. -/
theorem append_always_succeeds (s : State) (hc : 1 ≤ s.ringBufferSize)
    (name line : String) :
    ∃ s1 r, addToStorage s name line = some s1 ∧ s1.ringBufferSize = s.ringBufferSize ∧
      s1.logStorage name = some r ∧ r.Value = some line := by
  obtain ⟨s1, hs1, hsz, ⟨r, hr, hv⟩, -⟩ := addToStorage_some s name line hc
  exact ⟨s1, r, hs1, hsz, hr, hv⟩

/-- Witness of C8: the empty line appended to the empty name on a full bucket
of capacity 1. -/
theorem append_always_succeeds_witness :
    ∃ s1 r, addToStorage ((State.init 1).store "" ⟨some "a", []⟩) "" "" = some s1 ∧
      s1.ringBufferSize = 1 ∧ s1.logStorage "" = some r ∧ r.Value = some "" :=
  append_always_succeeds ((State.init 1).store "" ⟨some "a", []⟩) (by decide) "" ""

theorem Ring.Len_eq_length_Next (r : Ring) : r.Len = r.Next.toList.length := by
  rw [Ring.toList_Next]; simp [Ring.Len]

theorem populated_eq_Next (r : Ring) :
    populated r = (r.Next.toList.filter Option.isSome).length := by
  rw [Ring.toList_Next]
  simp only [populated, Ring.toList, List.filter_append, List.length_append, List.filter_cons,
    List.filter_nil]
  cases h : r.Value.isSome <;> simp [Nat.add_comm]

theorem populated_slots (c : Nat) (h : List String) :
    ((slots c h).filter Option.isSome).length = min h.length c := by
  rw [slots_eq, List.filter_append, ← retained_length c h]
  have h1 : (List.replicate (c - h.length) (none : Option String)).filter Option.isSome = [] := by
    simp [List.filter_eq_nil_iff]
  have h2 : ((retained c h).map some).filter Option.isSome = (retained c h).map some := by
    simp [List.filter_eq_self]
  rw [h1, h2]; simp

theorem cursor_of_slots (r : Ring) (c : Nat) (hc : 1 ≤ c) (h : List String) (hne : h ≠ [])
    (hslots : r.Next.toList = slots c h) : r.Value = h.getLast? := by
  obtain ⟨h0, l, rfl⟩ : ∃ h0 l, h = h0 ++ [l] :=
    ⟨h.dropLast, h.getLast hne, (List.dropLast_append_getLast hne).symm⟩
  rw [Ring.toList_Next, slots_snoc c hc] at hslots
  have := (List.append_inj' hslots rfl).2
  simp at this
  simp [this]

theorem run_keeps_buckets (ops : List Op) (s : State) (hc : 1 ≤ s.ringBufferSize) :
    ∃ s1, run s ops = some s1 ∧ s1.ringBufferSize = s.ringBufferSize ∧
      ∀ name r, s.logStorage name = some r → ∃ r1, s1.logStorage name = some r1 := by
  induction ops generalizing s with
  | nil => exact ⟨s, rfl, rfl, fun _ r hr => ⟨r, hr⟩⟩
  | cons op ops ih =>
    cases op with
    | add k line =>
      obtain ⟨s1, hs1, hsz, ⟨rk, hrk, -⟩, hframe⟩ := addToStorage_some s k line hc
      obtain ⟨s2, hs2, hsz2, hkeep⟩ := ih s1 (by omega)
      refine ⟨s2, by simp [run, step, hs1, hs2], by omega, ?_⟩
      intro name r hr
      by_cases hk : name = k
      · subst hk; exact hkeep name rk hrk
      · exact hkeep name r ((hframe name hk).trans hr)
    | get k n =>
      obtain ⟨s2, hs2, hsz2, hkeep⟩ := ih s hc
      exact ⟨s2, by simp [run, step, hs2], hsz2, hkeep⟩

/-- C9: for every capacity `C >= 1` and every sequence of `addToStorage` and
`getFromStorage` calls from the empty store, the calls all complete, the
capacity is still `C`, a name has a bucket exactly when a line was appended to
it, and every bucket is a ring of `C` slots of which `min a C` are populated
(`a >= 1` the number of appends to the name, so at most `C`), with the cursor
on the line appended last; whatever calls follow, the name still has a bucket. -/
theorem store_invariant (c : Int) (hc : 1 ≤ c) (ops more : List Op) :
    ∃ s1 s2, run (State.init c) ops = some s1 ∧ run s1 more = some s2 ∧
      s1.ringBufferSize = c ∧
      ∀ name, (s1.logStorage name = none ↔ appended name ops = []) ∧
        ∀ r, s1.logStorage name = some r →
          (r.Len : Int) = c ∧ 1 ≤ (appended name ops).length ∧
          populated r = min (appended name ops).length c.toNat ∧
          (populated r : Int) ≤ c ∧
          r.Value = (appended name ops).getLast? ∧
          ∃ r2, s2.logStorage name = some r2 := by
  have hc0 : 1 ≤ (State.init c).ringBufferSize := hc
  obtain ⟨s1, hrun1, hsz1, -⟩ := run_keeps_buckets ops (State.init c) hc0
  have hsz : s1.ringBufferSize = c := hsz1
  obtain ⟨s2, hrun2, -, hkeep⟩ := run_keeps_buckets more s1 (by omega)
  have hcn : 1 ≤ c.toNat := by omega
  refine ⟨s1, s2, hrun1, hrun2, hsz, ?_⟩
  intro name
  obtain ⟨t, hrunt, -, hb⟩ := run_fresh (State.init c) name ops hc0 rfl
  obtain rfl : s1 = t := Option.some.inj (hrun1.symm.trans hrunt)
  have hb1 : bucketOf s1 name c.toNat (appended name ops) := hb
  by_cases hne : appended name ops = []
  · rw [hne] at hb1
    have hnone : s1.logStorage name = none := hb1
    refine ⟨by simp [hne, hnone], ?_⟩
    intro r hr
    rw [hnone] at hr
    exact absurd hr (by simp)
  · obtain ⟨r0, hr0, hslots⟩ := (bucketOf_cons_iff s1 name _ _ hne).mp hb1
    refine ⟨by simp [hne, hr0], ?_⟩
    intro r hr
    obtain rfl : r0 = r := Option.some.inj (hr0.symm.trans hr)
    have hpop : populated r0 = min (appended name ops).length c.toNat := by
      rw [populated_eq_Next, hslots, populated_slots]
    refine ⟨?_, ?_, hpop, ?_, cursor_of_slots r0 _ hcn _ hne hslots, hkeep name r0 hr0⟩
    · rw [Ring.Len_eq_length_Next, hslots, slots_length]; omega
    · exact List.length_pos.mpr hne
    · rw [hpop]; omega

/-- Witness of C9: capacity 2; three appends to foo, one to bar and a read,
followed by one more append to bar. -/
theorem store_invariant_witness :
    ∃ s1 s2, run (State.init 2)
        [.add "foo" "a", .add "bar" "x", .add "foo" "b", .get "foo" 5, .add "foo" "c"] = some s1 ∧
      run s1 [.add "bar" "y"] = some s2 ∧
      s1.ringBufferSize = 2 ∧
      ∀ name, (s1.logStorage name = none ↔ appended name
          [.add "foo" "a", .add "bar" "x", .add "foo" "b", .get "foo" 5, .add "foo" "c"] = []) ∧
        ∀ r, s1.logStorage name = some r →
          (r.Len : Int) = 2 ∧ 1 ≤ (appended name
            [.add "foo" "a", .add "bar" "x", .add "foo" "b", .get "foo" 5, .add "foo" "c"]).length ∧
          populated r = min (appended name
            [.add "foo" "a", .add "bar" "x", .add "foo" "b", .get "foo" 5, .add "foo" "c"]).length
              (2 : Int).toNat ∧
          (populated r : Int) ≤ 2 ∧
          r.Value = (appended name
            [.add "foo" "a", .add "bar" "x", .add "foo" "b", .get "foo" 5, .add "foo" "c"]).getLast? ∧
          ∃ r2, s2.logStorage name = some r2 :=
  store_invariant 2 (by decide)
    [.add "foo" "a", .add "bar" "x", .add "foo" "b", .get "foo" 5, .add "foo" "c"]
    [.add "bar" "y"]

/-! ## Claims on the HTTP endpoint -/

/-- C10: with capacity `C >= 1`, a non-empty name over `[-a-z0-9]` that has no
bucket and any message `m`, the POST request `/<name>/<suffix>` whose form has
`m` as first value of the field `message` writes nothing to the response, and a
following request that is not a POST, with path `/<name>/1/<suffix>`, writes
exactly `m`. -/
theorem post_then_read_one (s : State) (hc : 1 ≤ s.ringBufferSize)
    (name m suffix suffix1 method : String)
    (form form1 : List (String × List String)) (others : List String)
    (hne : name.data ≠ []) (hchars : ∀ c ∈ name.data, isNameChar c = true)
    (hfresh : s.logStorage name = none)
    (hform : form.lookup "message" = some (m :: others))
    (hmeth : method ≠ "POST") :
    ∃ s1, httpHandler s ⟨"POST", "/" ++ name ++ "/" ++ suffix, form⟩ = some (s1, "") ∧
      httpHandler s1 ⟨method, "/" ++ name ++ "/1/" ++ suffix1, form1⟩ = some (s1, m) := by
  obtain ⟨m0, hpost⟩ := regexpForPost_of_data ("/" ++ name ++ "/" ++ suffix) name suffix
    (by simp [String.data_append]) hne hchars
  obtain ⟨m1, hget⟩ := regexpForGet_of_data ("/" ++ name ++ "/1/" ++ suffix1) name "1" suffix1
    (by simp [String.data_append]) hne hchars (by decide) (by decide)
  obtain ⟨s1, hadd, -, hb⟩ := addToStorage_bucketOf s name name m [] hc hfresh
  have hb1 : bucketOf s1 name s.ringBufferSize.toNat [m] := by simpa using hb
  have hread := (getFromStorage_bucketOf s1 name _ [m] (by simp) hb1 1).1
  have hret : retained s.ringBufferSize.toNat [m] = [m] := by
    have : 1 - s.ringBufferSize.toNat = 0 := by omega
    simp [retained, this]
  have hatoi : Atoi "1" = some 1 := by decide
  refine ⟨s1, ?_, ?_⟩
  · simp [httpHandler, hpost, hform, hadd]
  · rw [hret] at hread
    simp [httpHandler, hmeth, hget, hatoi, hread, readText, newlineJoined_single]

/-- Witness of C10: POST `/foo/x` with message=hello on the empty store of
capacity 3, then GET `/foo/1/x`. -/
theorem post_then_read_one_witness :
    ∃ s1, httpHandler (State.init 3) ⟨"POST", "/foo/x", [("message", ["hello"])]⟩
        = some (s1, "") ∧
      httpHandler s1 ⟨"GET", "/foo/1/x", []⟩ = some (s1, "hello") :=
  post_then_read_one (State.init 3) (by decide) "foo" "hello" "x" "x" "GET"
    [("message", ["hello"])] [] [] (by decide) (by decide) rfl rfl (by decide)

/-! ## Claims on malformed requests -/

theorem regexpForPost_shape (uri : String) (m : String × String)
    (hm : regexpForPost uri = some m) :
    ∃ rest : String, m.2.data ≠ [] ∧ (∀ c ∈ m.2.data, isNameChar c = true) ∧
      uri.data = '/' :: (m.2.data ++ '/' :: rest.data) := by
  unfold regexpForPost at hm
  split at hm
  · rename_i cs huri
    split at hm
    · rename_i tl hdrop
      by_cases hne : cs.takeWhile isNameChar = []
      · simp [hne] at hm
      · simp only [hne, if_false] at hm
        have hm2 : m.2 = String.mk (cs.takeWhile isNameChar) := by
          rw [← Option.some.inj hm]
        refine ⟨String.mk tl, ?_, ?_, ?_⟩
        · rw [hm2]; exact hne
        · rw [hm2]; intro c hc; exact List.mem_takeWhile_imp hc
        · rw [hm2, huri]
          show '/' :: cs = '/' :: (cs.takeWhile isNameChar ++ '/' :: tl)
          rw [← hdrop, List.takeWhile_append_dropWhile]
    · exact absurd hm (by simp)
  · exact absurd hm (by simp)

/-- C11: for every POST request whose path is not of the form
`/<name>/<anything>` with `<name>` a non-empty string over `[-a-z0-9]`, whatever
the form holds, the handler writes "Could not get application name from url: "
followed by the path, and the package state is returned as it was: no bucket
is created and no line appended. -/
theorem post_bad_path_routing (s : State) (uri : String) (form : List (String × List String))
    (hshape : ¬ ∃ name rest : String, name.data ≠ [] ∧
      (∀ c ∈ name.data, isNameChar c = true) ∧
      uri.data = '/' :: (name.data ++ '/' :: rest.data)) :
    httpHandler s ⟨"POST", uri, form⟩
      = some (s, "Could not get application name from url: " ++ uri) := by
  have hnone : regexpForPost uri = none := by
    cases hm : regexpForPost uri with
    | none => rfl
    | some m =>
      obtain ⟨rest, h1, h2, h3⟩ := regexpForPost_shape uri m hm
      exact absurd ⟨m.2, rest, h1, h2, h3⟩ hshape
  simp [httpHandler, hnone, routingMsg]

/-- Witness of C11: POST `/Foo/x` with a message field on the empty store. -/
theorem post_bad_path_routing_witness :
    httpHandler (State.init 3) ⟨"POST", "/Foo/x", [("message", ["hello"])]⟩
      = some (State.init 3, "Could not get application name from url: /Foo/x") :=
  post_bad_path_routing (State.init 3) "/Foo/x" [("message", ["hello"])] (by
    rintro ⟨name, rest, hne, hchars, hdata⟩
    obtain ⟨m0, hm⟩ := regexpForPost_of_data "/Foo/x" name rest hdata hne hchars
    have hnone : regexpForPost "/Foo/x" = none := by decide
    rw [hnone] at hm
    exact absurd hm (by simp))

theorem dropWhile_first_failure (p : Char → Bool) (l r : List Char)
    (hbad : ¬ ∀ c ∈ l, p c = true) :
    ∃ y tl, (l ++ r).dropWhile p = y :: tl ∧ y ∈ l ∧ p y = false := by
  induction l with
  | nil => exact absurd (fun c hc => absurd hc (List.not_mem_nil c)) hbad
  | cons a l ih =>
    cases ha : p a with
    | false => exact ⟨a, l ++ r, by simp [List.dropWhile, ha], List.mem_cons_self _ _, ha⟩
    | true =>
      have hbad1 : ¬ ∀ c ∈ l, p c = true := by
        intro hall
        apply hbad
        intro c hc
        cases List.mem_cons.mp hc with
        | inl h => rw [h]; exact ha
        | inr h => exact hall c h
      obtain ⟨y, tl, h1, h2, h3⟩ := ih hbad1
      exact ⟨y, tl, by simp [List.dropWhile, ha, h1], List.mem_cons_of_mem _ h2, h3⟩

theorem regexpForGet_bad_count (uri name count suffix : String)
    (huri : uri.data = '/' :: (name.data ++ '/' :: (count.data ++ '/' :: suffix.data)))
    (hchars : ∀ c ∈ name.data, isNameChar c = true)
    (hseg : ∀ c ∈ count.data, c ≠ '/')
    (hbad : ¬ (count.data ≠ [] ∧ ∀ c ∈ count.data, isDigitChar c = true)) :
    regexpForGet uri = none := by
  have hslash : isNameChar '/' = false := by decide
  have hslash2 : isDigitChar '/' = false := by decide
  unfold regexpForGet
  rw [huri]
  simp only [takeWhile_append_stop _ _ _ _ hchars hslash,
    dropWhile_append_stop _ _ _ _ hchars hslash]
  by_cases hall : ∀ c ∈ count.data, isDigitChar c = true
  · have hempty : count.data = [] := by
      by_contra hne
      exact hbad ⟨hne, hall⟩
    rw [takeWhile_append_stop _ _ _ _ hall hslash2,
      dropWhile_append_stop _ _ _ _ hall hslash2]
    simp [hempty]
  · obtain ⟨y, tl, hdrop, hy, -⟩ :=
      dropWhile_first_failure isDigitChar count.data ('/' :: suffix.data) hall
    have hyne : y ≠ '/' := hseg y hy
    rw [hdrop]
    split
    · rename_i heq
      exact absurd (List.cons.inj heq).1 hyne
    · rfl

/-- C12, counterexample: the read request `/foo/abc/x` is answered with the
routing diagnostic, not with the count diagnostic, whether or not foo has a
bucket: the path does not match `regexpForGet`, so `strconv.Atoi` is never
reached. -/
theorem read_nonnumeric_count_counterexample :
    regexpForGet "/foo/abc/x" = none ∧
      (httpHandler (State.init 3) ⟨"GET", "/foo/abc/x", []⟩).map Prod.snd
        = some "Could not get application name from url: /foo/abc/x" ∧
      (httpHandler (State.init 3) ⟨"GET", "/foo/abc/x", []⟩).map Prod.snd
        ≠ some "Unable to get log lines parameter from request\n" ∧
      (httpHandler (State.init 3) ⟨"GET", "/foo/abc/x", []⟩).map Prod.snd
        ≠ some "Unable to get log lines parameter from request" ∧
      (httpHandler ((State.init 3).store "foo" ⟨some "a", [none, none]⟩)
          ⟨"GET", "/foo/abc/x", []⟩).map Prod.snd
        = some "Could not get application name from url: /foo/abc/x" :=
  ⟨by decide, by decide, by decide, by decide, by decide⟩

/-- C12, amended: for every request that is not a POST and whose path is
`/<name>/<count>/<suffix>`, with the name over `[-a-z0-9]` and a count segment
(free of `/`) that is not a non-empty string of decimal digits, the handler
writes the routing diagnostic "Could not get application name from url: "
followed by the path and returns the state as it was. -/
theorem read_bad_count_routing (s : State) (method uri name count suffix : String)
    (form : List (String × List String)) (hmeth : method ≠ "POST")
    (huri : uri.data = '/' :: (name.data ++ '/' :: (count.data ++ '/' :: suffix.data)))
    (hchars : ∀ c ∈ name.data, isNameChar c = true)
    (hseg : ∀ c ∈ count.data, c ≠ '/')
    (hbad : ¬ (count.data ≠ [] ∧ ∀ c ∈ count.data, isDigitChar c = true)) :
    httpHandler s ⟨method, uri, form⟩
      = some (s, "Could not get application name from url: " ++ uri) := by
  have hnone := regexpForGet_bad_count uri name count suffix huri hchars hseg hbad
  simp [httpHandler, hmeth, hnone, routingMsg]

/-- Witness of the amended C12: GET `/foo/abc/x` on the empty store. -/
theorem read_bad_count_routing_witness :
    httpHandler (State.init 3) ⟨"GET", "/foo/abc/x", []⟩
      = some (State.init 3, "Could not get application name from url: /foo/abc/x") :=
  read_bad_count_routing (State.init 3) "GET" "/foo/abc/x" "foo" "abc" "x" []
    (by decide) rfl (by decide) (by decide) (by decide)

/-! ## Claims on the write request and the ingestion loop -/

/-- C13: for a POST request whose path is `/<name>/<anything>` with the name a
non-empty string over `[-a-z0-9]`: when the form has a `message` field with
first value `v`, the handler does what `addToStorage(name, v)` does and writes
nothing (with a capacity of at least 1 the append succeeds); when the form has
no `message` field it writes the diagnostic and returns the state as it was;
and an empty response body occurs only when the field is present. -/
theorem post_message_field (s : State) (uri name rest : String)
    (form : List (String × List String))
    (huri : uri.data = '/' :: (name.data ++ '/' :: rest.data))
    (hne : name.data ≠ []) (hchars : ∀ c ∈ name.data, isNameChar c = true) :
    (∀ v vs, form.lookup "message" = some (v :: vs) →
        httpHandler s ⟨"POST", uri, form⟩ = (addToStorage s name v).map fun s1 => (s1, "")) ∧
      (1 ≤ s.ringBufferSize → ∀ v vs, form.lookup "message" = some (v :: vs) →
        ∃ s1, addToStorage s name v = some s1 ∧
          httpHandler s ⟨"POST", uri, form⟩ = some (s1, "")) ∧
      (form.lookup "message" = none →
        httpHandler s ⟨"POST", uri, form⟩
          = some (s, "Could not read from post request, no 'message' param in POST\n")) ∧
      ((∃ s1, httpHandler s ⟨"POST", uri, form⟩ = some (s1, "")) →
        ∃ v vs, form.lookup "message" = some (v :: vs)) := by
  obtain ⟨m0, hpost⟩ := regexpForPost_of_data uri name rest huri hne hchars
  have hpresent : ∀ v vs, form.lookup "message" = some (v :: vs) →
      httpHandler s ⟨"POST", uri, form⟩ = (addToStorage s name v).map fun s1 => (s1, "") := by
    intro v vs hv
    simp [httpHandler, hpost, hv]
  refine ⟨hpresent, ?_, ?_, ?_⟩
  · intro hc v vs hv
    obtain ⟨s1, hs1, -⟩ := addToStorage_some s name v hc
    exact ⟨s1, hs1, by rw [hpresent v vs hv, hs1]; rfl⟩
  · intro hnone
    simp [httpHandler, hpost, hnone, noMessageMsg]
  · rintro ⟨s1, hs1⟩
    cases hl : form.lookup "message" with
    | none =>
      simp [httpHandler, hpost, hl, noMessageMsg] at hs1
    | some vals =>
      cases vals with
      | nil => simp [httpHandler, hpost, hl] at hs1
      | cons v vs => exact ⟨v, vs, rfl⟩

/-- Witness of C13: POST `/foo/x` on the empty store of capacity 3, once with
the field message=hello and once with another field only. -/
theorem post_message_field_witness :
    (∃ s1, addToStorage (State.init 3) "foo" "hello" = some s1 ∧
        httpHandler (State.init 3) ⟨"POST", "/foo/x", [("message", ["hello"])]⟩
          = some (s1, "")) ∧
      httpHandler (State.init 3) ⟨"POST", "/foo/x", [("msg", ["hello"])]⟩
        = some (State.init 3,
            "Could not read from post request, no 'message' param in POST\n") :=
  ⟨(post_message_field (State.init 3) "/foo/x" "foo" "x" [("message", ["hello"])]
      rfl (by decide) (by decide)).2.1 (by decide) "hello" [] rfl,
   (post_message_field (State.init 3) "/foo/x" "foo" "x" [("msg", ["hello"])]
      rfl (by decide) (by decide)).2.2.1 (by decide)⟩

/-- C14, counterexample: for a record "garbage" on which `getProjectName` fails
with an error of text "no name", the line stored in the bucket "unknown" is
"no name\n", the text followed by the newline of `fmt.Sprintln`, and not the
error message itself; it is read back with that newline, and two such records
read back as "no name\n\nno name\n". -/
theorem ingest_extraction_failure_counterexample :
    (∃ s1 r, ringBufferLoopBody (fun _ => .error "no name") "" (State.init 2) "garbage"
          = some (s1, []) ∧
        s1.logStorage "unknown" = some r ∧
        r.Value = some "no name\n" ∧ r.Value ≠ some "no name" ∧
        linesRead s1 "unknown" 1 = some ["no name\n"] ∧
        getFromStorage s1 "unknown" 1 = .ok "no name\n" ∧
        getFromStorage s1 "unknown" 1 ≠ .ok "no name") ∧
      ∃ p, ringBufferLoop (fun _ => .error "no name") "" (State.init 2) ["garbage", "junk"]
          = some p ∧
        getFromStorage p.1 "unknown" 2 = .ok "no name\n\nno name\n" :=
  ⟨⟨_, _, rfl, rfl, rfl, by decide, by decide, by decide, by decide⟩, _, rfl, by decide⟩

/-- C14, amended: in one iteration of the loop of `ringBufferLoop`, for a record
whose rendering `m` makes `getProjectName` fail with an error of text `e`, the
iteration does exactly what the single call
`addToStorage("unknown", fmt.Sprintln(err))` does: with a capacity of at least
1 the state becomes the one after that one append, the cursor slot of the
bucket "unknown" holds the text of the error followed by a newline (its
rendering by `fmt.Sprintln`) and not the record, and every other bucket is as
before. -/
theorem ingest_extraction_failure (getProjectName : String → Except String String)
    (DrainURI : String) (s : State) (m e : String)
    (hfail : getProjectName m = .error e) :
    ringBufferLoopBody getProjectName DrainURI s m
        = (addToStorage s "unknown" (e ++ "\n")).map
            (fun s1 => (s1, if DrainURI ≠ "" then [(m, DrainURI)] else [])) ∧
      (1 ≤ s.ringBufferSize →
        ∃ s1 r, ringBufferLoopBody getProjectName DrainURI s m
            = some (s1, if DrainURI ≠ "" then [(m, DrainURI)] else []) ∧
          run s [.add "unknown" (e ++ "\n")] = some s1 ∧
          appended "unknown" [.add "unknown" (e ++ "\n")] = [e ++ "\n"] ∧
          s1.logStorage "unknown" = some r ∧ r.Value = some (e ++ "\n") ∧
          ∀ k, k ≠ "unknown" → s1.logStorage k = s.logStorage k) := by
  have hbody : ringBufferLoopBody getProjectName DrainURI s m
      = (addToStorage s "unknown" (e ++ "\n")).map
          (fun s1 => (s1, if DrainURI ≠ "" then [(m, DrainURI)] else [])) := by
    simp [ringBufferLoopBody, hfail, Sprintln]
  refine ⟨hbody, ?_⟩
  intro hc
  obtain ⟨s1, hs1, -, ⟨r, hr, hv⟩, hframe⟩ := addToStorage_some s "unknown" (e ++ "\n") hc
  refine ⟨s1, r, ?_, ?_, ?_, hr, hv, hframe⟩
  · rw [hbody, hs1]; rfl
  · simp [run, step, hs1]
  · simp [appended]

/-- Witness of the amended C14: a record "garbage" on which extraction fails with the text
"no name", no drain configured, empty store of capacity 2. -/
theorem ingest_extraction_failure_witness :
    ∃ s1 r, ringBufferLoopBody (fun _ => .error "no name") "" (State.init 2) "garbage"
        = some (s1, []) ∧
      run (State.init 2) [.add "unknown" "no name\n"] = some s1 ∧
      appended "unknown" [.add "unknown" "no name\n"] = ["no name\n"] ∧
      s1.logStorage "unknown" = some r ∧ r.Value = some "no name\n" ∧
      ∀ k, k ≠ "unknown" → s1.logStorage k = (State.init 2).logStorage k :=
  (ingest_extraction_failure (fun _ => .error "no name") "" (State.init 2) "garbage" "no name"
    rfl).2 (by decide)

/-! ## Claims on the exact text, isolation, the count and the capacity -/

/-- C16: with capacity `C >= 1`, a name to which the lines `h` (at least one)
were appended, so that its retained lines `rs` are the last `m = min h.length C`
of them, and a count `n >= 1`: when `n <= m` the text of
`getFromStorage(name, n)` is the first `n` retained lines separated by
newlines, none after the last; when `n > m` it is every retained line followed
by a newline.  The lines taken are the first `n` retained ones whatever they
are, so an empty line counts like any other. -/
theorem read_text_exact (s : State) (name : String) (ops : List Op)
    (hc : 1 ≤ s.ringBufferSize) (hfresh : s.logStorage name = none)
    (ha : appended name ops ≠ []) (n : Int) (hn : 1 ≤ n) :
    ∃ s1, run s ops = some s1 ∧
      (retained s.ringBufferSize.toNat (appended name ops)).length
        = min (appended name ops).length s.ringBufferSize.toNat ∧
      (n ≤ (min (appended name ops).length s.ringBufferSize.toNat : Nat) →
        getFromStorage s1 name n = .ok ("\n".intercalate
          ((retained s.ringBufferSize.toNat (appended name ops)).take n.toNat))) ∧
      ((min (appended name ops).length s.ringBufferSize.toNat : Nat) < n →
        getFromStorage s1 name n = .ok (String.join
          ((retained s.ringBufferSize.toNat (appended name ops)).map fun l => l ++ "\n"))) ∧
      linesRead s1 name n
        = some ((retained s.ringBufferSize.toNat (appended name ops)).take n.toNat) := by
  obtain ⟨s1, hrun, -, hb⟩ := run_fresh s name ops hc hfresh
  obtain ⟨htext, hlines⟩ := getFromStorage_bucketOf s1 name _ _ ha hb n
  have hlen := retained_length s.ringBufferSize.toNat (appended name ops)
  have h0 : ¬ n ≤ 0 := by omega
  refine ⟨s1, hrun, hlen, ?_, ?_, hlines⟩
  · intro hle
    have h1 : n ≤ ((retained s.ringBufferSize.toNat (appended name ops)).length : Int) := by
      rw [hlen]; exact hle
    rw [htext]
    simp only [readText, h0, h1, if_true, if_false, newlineJoined]
  · intro hlt
    have h1 : ¬ n ≤ ((retained s.ringBufferSize.toNat (appended name ops)).length : Int) := by
      rw [hlen]; omega
    rw [htext]
    simp only [readText, h0, h1, if_false, terminated]

/-- Witness of C16: capacity 3 and the lines "", "x" appended to foo; reading 1
line gives the empty line alone, so the text is empty. -/
theorem read_text_exact_witness :
    ∃ s1, run (State.init 3) [.add "foo" "", .add "foo" "x"] = some s1 ∧
      (retained 3 ["", "x"]).length = 2 ∧
      ((1 : Int) ≤ (2 : Nat) → getFromStorage s1 "foo" 1 = .ok "") ∧
      (((2 : Nat) : Int) < 1 → getFromStorage s1 "foo" 1 = .ok "\nx\n") ∧
      linesRead s1 "foo" 1 = some [""] :=
  read_text_exact (State.init 3) "foo" [.add "foo" "", .add "foo" "x"]
    (by decide) rfl (by decide) 1 (by decide)

theorem addToStorage_frame (s s1 : State) (a line : String)
    (hadd : addToStorage s a line = some s1) :
    s1.ringBufferSize = s.ringBufferSize ∧
      ∀ k, k ≠ a → s1.logStorage k = s.logStorage k := by
  unfold addToStorage at hadd
  cases ha : s.logStorage a with
  | none =>
    rw [ha] at hadd
    cases hnew : Ring.New s.ringBufferSize with
    | none => rw [hnew] at hadd; exact absurd hadd (by simp)
    | some r =>
      rw [hnew] at hadd
      obtain rfl := Option.some.inj hadd
      exact ⟨rfl, fun k hk => State.store_other _ _ _ _ hk⟩
  | some r =>
    rw [ha] at hadd
    obtain rfl := Option.some.inj hadd
    exact ⟨rfl, fun k hk => State.store_other _ _ _ _ hk⟩

/-- C17: in every state, for distinct names `a` and `b`, an append
`addToStorage(a, line)` leaves the bucket of `b` as it was, so for every count
`getFromStorage(b, n)` returns the same text or the same NotFound error as
before; every bucket other than the one of `a` is unchanged. -/
theorem append_leaves_other_buckets (s s1 : State) (a b line : String) (hab : a ≠ b)
    (hadd : addToStorage s a line = some s1) :
    s1.logStorage b = s.logStorage b ∧
      (∀ n : Int, getFromStorage s1 b n = getFromStorage s b n ∧
        linesRead s1 b n = linesRead s b n) ∧
      ∀ k, k ≠ a → s1.logStorage k = s.logStorage k := by
  obtain ⟨-, hframe⟩ := addToStorage_frame s s1 a line hadd
  have hb : s1.logStorage b = s.logStorage b := hframe b (Ne.symm hab)
  refine ⟨hb, ?_, hframe⟩
  intro n
  simp [getFromStorage, linesRead, hb]

/-- Witness of C17: capacity 1, bar holds "x" and foo holds "a"; the append of
"b" to foo, which evicts "a" there, leaves what is read from bar as it was. -/
theorem append_leaves_other_buckets_witness :
    getFromStorage
        ((((State.init 1).store "bar" ⟨some "x", []⟩).store "foo" ⟨some "a", []⟩).store
          "foo" ⟨some "b", []⟩) "bar" 1
      = getFromStorage
        (((State.init 1).store "bar" ⟨some "x", []⟩).store "foo" ⟨some "a", []⟩) "bar" 1 ∧
    linesRead
        ((((State.init 1).store "bar" ⟨some "x", []⟩).store "foo" ⟨some "a", []⟩).store
          "foo" ⟨some "b", []⟩) "bar" 1
      = linesRead
        (((State.init 1).store "bar" ⟨some "x", []⟩).store "foo" ⟨some "a", []⟩) "bar" 1 :=
  (append_leaves_other_buckets
    (((State.init 1).store "bar" ⟨some "x", []⟩).store "foo" ⟨some "a", []⟩)
    ((((State.init 1).store "bar" ⟨some "x", []⟩).store "foo" ⟨some "a", []⟩).store
      "foo" ⟨some "b", []⟩)
    "foo" "bar" "b" (by decide) rfl).2.1 1

/-- C18: for a request that is not a POST and whose path is
`/<name>/<digits>/<suffix>`, with the name a non-empty string over `[-a-z0-9]`
and a non-empty string of decimal digits: when the value of the digits is at
most `2^63 - 1` the handler writes what `getFromStorage(name, value)` gives
(the data, or the text of the error and a newline), the value being the same
with leading zeros and never negative; when the value is larger the handler
writes "Unable to get log lines parameter from request" and a newline in every
state alike, the store not being read. -/
theorem read_count_parsing (s : State) (method uri name digits suffix : String)
    (form : List (String × List String)) (hmeth : method ≠ "POST")
    (huri : uri.data = '/' :: (name.data ++ '/' :: (digits.data ++ '/' :: suffix.data)))
    (hne : name.data ≠ []) (hchars : ∀ c ∈ name.data, isNameChar c = true)
    (hdne : digits.data ≠ []) (hdigits : ∀ c ∈ digits.data, isDigitChar c = true) :
    (decimalValue digits.data ≤ 2 ^ 63 - 1 →
        httpHandler s ⟨method, uri, form⟩ = some (s,
          match getFromStorage s name (decimalValue digits.data : Int) with
          | .error err => err ++ "\n"
          | .ok data => data)) ∧
      (0 : Int) ≤ (decimalValue digits.data : Int) ∧
      decimalValue ('0' :: digits.data) = decimalValue digits.data ∧
      (2 ^ 63 - 1 < decimalValue digits.data →
        ∀ s2 : State, httpHandler s2 ⟨method, uri, form⟩
          = some (s2, "Unable to get log lines parameter from request\n")) := by
  obtain ⟨m0, hm⟩ := regexpForGet_of_data uri name digits suffix huri hne hchars hdne hdigits
  have hatoi := Atoi_digits digits hdne hdigits
  refine ⟨?_, by omega, ?_, ?_⟩
  · intro hval
    have hval2 : ¬ 2 ^ 63 ≤ decimalValue digits.data := by omega
    rw [if_neg hval2] at hatoi
    simp only [httpHandler, hmeth, if_false, hm, hatoi]
    cases getFromStorage s name (decimalValue digits.data : Int) <;> rfl
  · simp [decimalValue]
  · intro hval s2
    have hval2 : 2 ^ 63 ≤ decimalValue digits.data := by omega
    rw [if_pos hval2] at hatoi
    simp only [httpHandler, hmeth, if_false, hm, hatoi, badCountMsg]

/-- Witness of C18: GET `/foo/007/x` on a bucket holding "a" reads with the
count 7, and GET `/foo/9223372036854775808/x` gets the count diagnostic. -/
theorem read_count_parsing_witness :
    httpHandler ((State.init 2).store "foo" ⟨some "a", [none]⟩) ⟨"GET", "/foo/007/x", []⟩
        = some ((State.init 2).store "foo" ⟨some "a", [none]⟩,
            match getFromStorage ((State.init 2).store "foo" ⟨some "a", [none]⟩) "foo"
              (decimalValue "007".data : Int) with
            | .error err => err ++ "\n"
            | .ok data => data) ∧
      ∀ s2 : State, httpHandler s2 ⟨"GET", "/foo/9223372036854775808/x", []⟩
        = some (s2, "Unable to get log lines parameter from request\n") :=
  ⟨(read_count_parsing ((State.init 2).store "foo" ⟨some "a", [none]⟩) "GET" "/foo/007/x"
      "foo" "007" "x" [] (by decide) rfl (by decide) (by decide) (by decide) (by decide)).1
      (by decide),
   (read_count_parsing (State.init 2) "GET" "/foo/9223372036854775808/x"
      "foo" "9223372036854775808" "x" [] (by decide) rfl (by decide) (by decide) (by decide)
      (by decide)).2.2.2 (by decide)⟩

/-- C19: `RingBufferHandler` makes `bufferSize` the capacity as it is and leaves
the map alone; with a capacity `C <= 0`, `ring.New(C)` is the nil ring and the
first `addToStorage` for a name without a bucket panics before the map is
assigned, so the name still has no bucket; hence whenever such a first append
succeeds, `C >= 1`. -/
theorem first_append_needs_capacity (s : State) (C port : Int) (name line : String)
    (hfresh : s.logStorage name = none) :
    (RingBufferHandler s C port).ringBufferSize = C ∧
      (RingBufferHandler s C port).logStorage name = none ∧
      (C ≤ 0 → Ring.New C = none ∧
        addToStorage (RingBufferHandler s C port) name line = none) ∧
      ∀ s1, addToStorage (RingBufferHandler s C port) name line = some s1 → 1 ≤ C := by
  have hfail : C ≤ 0 → addToStorage (RingBufferHandler s C port) name line = none := by
    intro hC
    simp [addToStorage, RingBufferHandler, hfresh, Ring.New, hC]
  refine ⟨rfl, hfresh, fun hC => ⟨by simp [Ring.New, hC], hfail hC⟩, ?_⟩
  intro s1 hs1
  by_contra hC
  rw [hfail (by omega)] at hs1
  exact absurd hs1 (by simp)

/-- Witness of C19: capacity 0 and capacity -5 on the empty store. -/
theorem first_append_needs_capacity_witness :
    (Ring.New 0 = none ∧
        addToStorage (RingBufferHandler (State.init 3) 0 8088) "foo" "a" = none) ∧
      (Ring.New (-5) = none ∧
        addToStorage (RingBufferHandler (State.init 3) (-5) 8088) "foo" "a" = none) :=
  ⟨(first_append_needs_capacity (State.init 3) 0 8088 "foo" "a" rfl).2.2.1 (by decide),
   (first_append_needs_capacity (State.init 3) (-5) 8088 "foo" "a" rfl).2.2.1 (by decide)⟩

end RingBuffer
